import Mathlib

/-!
Verification of the core image-processing pipeline of `pypher`
(`src/pypher/pypher.py`): geometric array operations, unitary discrete
Fourier transforms, PSF-to-OTF conversion, Wiener deconvolution and the
settings/stopping logic of the unsupervised regularisation estimator.

Modelling conventions:
* floating-point arithmetic is idealised as exact arithmetic over a field
  (`ℚ` for concrete evaluations, an abstract commutative ring or field for
  general theorems);
* complex numbers are modelled by the computable pairs `Cplx R`;
* IEEE non-finite results (NaN/Inf) are modelled by `Option`: a `none`
  entry means the value is not a finite number.  The only operation that
  can introduce a non-finite value in the modelled pipeline is division
  by zero; every arithmetic operation propagates `none`, matching IEEE
  NaN/Inf contagion through sums and products;
* `numpy` primitive roots `exp (-2*pi*I/m)` and the scale `sqrt (m*n)`
  are irrational, so they are carried as parameters of a `FourierCtx`
  together with their inverses; theorems that need their defining
  properties state them as hypotheses (`FourierCtx.Unitary`).
-/

set_option maxRecDepth 1000000

namespace Pypher

/-- Computable model of a complex number over a commutative ring `R`
(numpy complex values over idealised exact reals). -/
@[ext]
structure Cplx (R : Type) where
  re : R
  im : R
deriving DecidableEq

namespace Cplx

variable {R : Type} [CommRing R]

instance : Zero (Cplx R) := ⟨⟨0, 0⟩⟩

instance : One (Cplx R) := ⟨⟨1, 0⟩⟩

instance : Add (Cplx R) := ⟨fun z w => ⟨z.re + w.re, z.im + w.im⟩⟩

instance : Neg (Cplx R) := ⟨fun z => ⟨-z.re, -z.im⟩⟩

instance : Mul (Cplx R) :=
  ⟨fun z w => ⟨z.re * w.re - z.im * w.im, z.re * w.im + z.im * w.re⟩⟩

@[simp] theorem zero_re : (0 : Cplx R).re = 0 := rfl

@[simp] theorem zero_im : (0 : Cplx R).im = 0 := rfl

@[simp] theorem one_re : (1 : Cplx R).re = 1 := rfl

@[simp] theorem one_im : (1 : Cplx R).im = 0 := rfl

@[simp] theorem add_re (z w : Cplx R) : (z + w).re = z.re + w.re := rfl

@[simp] theorem add_im (z w : Cplx R) : (z + w).im = z.im + w.im := rfl

@[simp] theorem neg_re (z : Cplx R) : (-z).re = -z.re := rfl

@[simp] theorem neg_im (z : Cplx R) : (-z).im = -z.im := rfl

@[simp] theorem mul_re (z w : Cplx R) : (z * w).re = z.re * w.re - z.im * w.im := rfl

@[simp] theorem mul_im (z w : Cplx R) : (z * w).im = z.re * w.im + z.im * w.re := rfl

instance : CommRing (Cplx R) where
  add_assoc a b c := by ext <;> simp <;> ring
  zero_add a := by ext <;> simp
  add_zero a := by ext <;> simp
  add_comm a b := by ext <;> simp <;> ring
  left_distrib a b c := by ext <;> simp <;> ring
  right_distrib a b c := by ext <;> simp <;> ring
  zero_mul a := by ext <;> simp
  mul_zero a := by ext <;> simp
  mul_assoc a b c := by ext <;> simp <;> ring
  one_mul a := by ext <;> simp
  mul_one a := by ext <;> simp
  mul_comm a b := by ext <;> simp <;> ring
  neg_add_cancel a := by ext <;> simp
  natCast n := ⟨n, 0⟩
  natCast_zero := by ext <;> simp
  natCast_succ n := by ext <;> simp
  nsmul n z := ⟨n • z.re, n • z.im⟩
  nsmul_zero a := by ext <;> simp
  nsmul_succ n a := by ext <;> simp [add_nsmul] <;> ring
  zsmul n z := ⟨n • z.re, n • z.im⟩
  zsmul_zero' a := by ext <;> simp
  zsmul_succ' n a := by ext <;> simp [add_zsmul] <;> ring
  zsmul_neg' n a := by ext <;> simp [add_zsmul] <;> ring

@[simp] theorem natCast_re (n : ℕ) : (n : Cplx R).re = n := rfl

@[simp] theorem natCast_im (n : ℕ) : (n : Cplx R).im = 0 := rfl

/-- Complex conjugation (`np.conj`). -/
def conj (z : Cplx R) : Cplx R := ⟨z.re, -z.im⟩

/-- Squared modulus: the exact value of `np.abs(z)**2`. -/
def abs2 (z : Cplx R) : R := z.re * z.re + z.im * z.im

/-- Embedding of a real scalar as a complex one (numpy real-to-complex cast). -/
def ofReal (x : R) : Cplx R := ⟨x, 0⟩

end Cplx

/-- A 2-D data array (`numpy.ndarray`): a shape together with the pixel
values; `px i j` is only meaningful for `i < rows` and `j < cols`. -/
structure Img (α : Type) where
  rows : ℕ
  cols : ℕ
  px : ℕ → ℕ → α

namespace Img

/-- Elementwise map over an array, preserving its shape. -/
def map {α β : Type} (g : α → β) (a : Img α) : Img β :=
  ⟨a.rows, a.cols, fun i j => g (a.px i j)⟩

/-- Elementwise combination of two equally-shaped arrays (numpy
broadcasting of two arrays of identical shape). -/
def zipWith {α β γ : Type} (g : α → β → γ) (a : Img α) (b : Img β) : Img γ :=
  ⟨a.rows, a.cols, fun i j => g (a.px i j) (b.px i j)⟩

/-- Extensional equality of two arrays: same shape, same values inside it. -/
def eqOn {α : Type} (a b : Img α) : Prop :=
  a.rows = b.rows ∧ a.cols = b.cols ∧
    ∀ i, i < a.rows → ∀ j, j < a.cols → a.px i j = b.px i j

/-- The test `np.all(psf == 0)`. -/
def allZero {α : Type} [Zero α] [DecidableEq α] (a : Img α) : Bool :=
  decide (∀ i, i < a.rows → ∀ j, j < a.cols → a.px i j = 0)

/-- An all-zero array of the given shape (`np.zeros`). -/
def zeroImg (α : Type) [Zero α] (m n : ℕ) : Img α := ⟨m, n, fun _ _ => 0⟩

/-- Real array viewed as a complex one (numpy casting before an FFT). -/
def ofReal {R : Type} (a : Img R) [CommRing R] : Img (Cplx R) :=
  ⟨a.rows, a.cols, fun i j => Cplx.ofReal (a.px i j)⟩

end Img

instance {ε α : Type} [DecidableEq ε] [DecidableEq α] : DecidableEq (Except ε α) := fun a b =>
  match a, b with
  | .error e, .error f =>
    if h : e = f then .isTrue (by rw [h]) else .isFalse (by intro hc; cases hc; exact h rfl)
  | .ok x, .ok y =>
    if h : x = y then .isTrue (by rw [h]) else .isFalse (by intro hc; cases hc; exact h rfl)
  | .error _, .ok _ => .isFalse (by intro hc; cases hc)
  | .ok _, .error _ => .isFalse (by intro hc; cases hc)

/-- Error values raised by the modelled Python code. -/
inductive PyErr where
  /-- A `ValueError` raised by `trim` and `zero_pad`. -/
  | valueErr : PyErr
  /-- A `MemoryError` raised by `imresample` (the spec's ResourceLimitError). -/
  | memoryErr : PyErr
  /-- A `TypeError` raised when subscripting `None`. -/
  | typeErr : PyErr
deriving DecidableEq

/-!  ### `imresample` (pypher.py lines 150-188)

Only the output-size selection and the resource guard are arithmetic; the
spline zoom itself is a `scipy` collaborator and is abstracted as a
function parameter. -/

/-- Size selection of `imresample` (lines 174-184):
`new_size = int(np.ceil(old_size * source_pscale / target_pscale))`,
then `raise MemoryError` if `new_size > 10000`, then
`if not (old_size - new_size) % 2: new_size += 1`.
Python's `not` of the remainder is true exactly when the remainder is `0`,
and Python's `%` with positive modulus agrees with `Int.emod`. -/
def imresample_new_size (old_size : ℕ) (source_pscale target_pscale : ℚ) :
    Except PyErr ℤ :=
  let new_size : ℤ := ⌈(old_size : ℚ) * source_pscale / target_pscale⌉
  if new_size > 10000 then .error .memoryErr
  else if ((old_size : ℤ) - new_size) % 2 = 0 then .ok (new_size + 1)
  else .ok new_size

/-- Model of `imresample` (lines 150-188).  The `scipy.ndimage.zoom` collaborator is
abstracted as the parameter `zoomF` (receiving the image and the zoom
ratio); the division by `ratio**2` conserves total flux.  The `MemoryError`
guard fires before `zoomF` is ever invoked, so no oversized array is
produced. -/
def imresample (zoomF : Img ℚ → ℚ → Img ℚ) (image : Img ℚ)
    (source_pscale target_pscale : ℚ) : Except PyErr (Img ℚ) := do
  let new_size ← imresample_new_size image.rows source_pscale target_pscale
  let r : ℚ := (new_size : ℚ) / (image.rows : ℚ)
  .ok ((zoomF image r).map (fun x => x / (r * r)))

/-- Claim C2, failing input: `old_size = 4`, `source_pscale = 1`,
`target_pscale = 2` gives `new_size = ceil(2) = 2`, and `(4 - 2) % 2 = 0`,
so line 183 *increments* the size to `3`, leaving `old_size - new_size`
odd.  The claim (and the function's own docstring, "the parity of the
image is conserved") requires the even difference to be kept, i.e. an
output of `2`. -/
theorem imresample_parity_failing_input :
    imresample_new_size 4 1 2 = Except.ok 3 := by with_unfolding_all decide

/-- Claim C5: whenever the computed size `ceil(old_size * s / t)` exceeds
10000, `imresample` raises the resource-limit error (`MemoryError`), for
every zoom collaborator — in particular the oversized array is never
built. -/
theorem imresample_resource_limit (zoomF : Img ℚ → ℚ → Img ℚ) (image : Img ℚ)
    (s t : ℚ) (hs : 0 < s) (ht : 0 < t)
    (hbig : 10000 < ⌈(image.rows : ℚ) * s / t⌉) :
    imresample zoomF image s t = Except.error PyErr.memoryErr := by
  unfold imresample imresample_new_size
  simp only [gt_iff_lt, hbig, if_true]
  rfl

/-- Witness for C5: a 20000-pixel-wide image resampled to double resolution
trips the guard. -/
theorem imresample_resource_limit_witness :
    (0 : ℚ) < 2 ∧ (0 : ℚ) < 1 ∧ 10000 < ⌈((Img.zeroImg ℚ 20000 20000).rows : ℚ) * 2 / 1⌉ ∧
      imresample (fun a _ => a) (Img.zeroImg ℚ 20000 20000) 2 1 =
        Except.error PyErr.memoryErr :=
  ⟨by norm_num, by norm_num, by with_unfolding_all decide,
    imresample_resource_limit (fun a _ => a) (Img.zeroImg ℚ 20000 20000) 2 1
      (by norm_num) (by norm_num) (by with_unfolding_all decide)⟩

/-!  ### `trim` and `zero_pad` (pypher.py lines 191-281) -/

/-- Placement of the input inside the output of `zero_pad`. -/
inductive PadPos where
  | corner : PadPos
  | center : PadPos
deriving DecidableEq

/-- Model of `trim` (lines 191-228): checks, in source order, shape equality
(early return), non-positive target shape, target larger than source,
and parity of the per-axis difference; then extracts the centered
sub-array at offsets `dshape // 2`. -/
def trim {α : Type} (image : Img α) (sr sc : ℕ) : Except PyErr (Img α) :=
  if image.rows = sr ∧ image.cols = sc then .ok image
  else if sr = 0 ∨ sc = 0 then .error .valueErr
  else if image.rows < sr ∨ image.cols < sc then .error .valueErr
  else if (image.rows - sr) % 2 ≠ 0 ∨ (image.cols - sc) % 2 ≠ 0 then .error .valueErr
  else
    .ok ⟨sr, sc, fun i j =>
      image.px (i + (image.rows - sr) / 2) (j + (image.cols - sc) / 2)⟩

/-- Model of `zero_pad` (lines 231-281): checks shape equality (early return),
non-positive target shape, and target smaller than source; allocates a
zero array and writes the input at offset `(0,0)` for `'corner'`, or at
offsets `dshape // 2` for `'center'` after the parity check. -/
def zero_pad {α : Type} [Zero α] (image : Img α) (sr sc : ℕ) (position : PadPos) :
    Except PyErr (Img α) :=
  if image.rows = sr ∧ image.cols = sc then .ok image
  else if sr = 0 ∨ sc = 0 then .error .valueErr
  else if sr < image.rows ∨ sc < image.cols then .error .valueErr
  else
    match position with
    | .center =>
      if (sr - image.rows) % 2 ≠ 0 ∨ (sc - image.cols) % 2 ≠ 0 then .error .valueErr
      else
        let offx := (sr - image.rows) / 2
        let offy := (sc - image.cols) / 2
        .ok ⟨sr, sc, fun i j =>
          if offx ≤ i ∧ i < offx + image.rows ∧ offy ≤ j ∧ j < offy + image.cols then
            image.px (i - offx) (j - offy)
          else 0⟩
    | .corner =>
      .ok ⟨sr, sc, fun i j =>
        if i < image.rows ∧ j < image.cols then image.px i j else 0⟩

/-- Claim C6: centre-padding an image to a larger shape of matching parity
and trimming back to the original shape recovers the image. -/
theorem trim_zero_pad_roundtrip {α : Type} [Zero α] (image : Img α) (sr sc : ℕ)
    (hr0 : 0 < image.rows) (hc0 : 0 < image.cols)
    (hr : image.rows ≤ sr) (hc : image.cols ≤ sc)
    (hpr : (sr - image.rows) % 2 = 0) (hpc : (sc - image.cols) % 2 = 0) :
    ∃ padded trimmed, zero_pad image sr sc .center = Except.ok padded ∧
      trim padded image.rows image.cols = Except.ok trimmed ∧
      trimmed.eqOn image := by
  by_cases heq : image.rows = sr ∧ image.cols = sc
  · refine ⟨image, image, ?_, ?_, ?_⟩
    · simp [zero_pad, heq]
    · simp [trim]
    · exact ⟨rfl, rfl, fun i _ j _ => rfl⟩
  · have hne : ¬ (sr = 0 ∨ sc = 0) := by omega
    have hlt : ¬ (sr < image.rows ∨ sc < image.cols) := by omega
    have hpar : ¬ ((sr - image.rows) % 2 ≠ 0 ∨ (sc - image.cols) % 2 ≠ 0) := by omega
    refine ⟨⟨sr, sc, fun i j =>
        if (sr - image.rows) / 2 ≤ i ∧ i < (sr - image.rows) / 2 + image.rows ∧
            (sc - image.cols) / 2 ≤ j ∧ j < (sc - image.cols) / 2 + image.cols then
          image.px (i - (sr - image.rows) / 2) (j - (sc - image.cols) / 2)
        else 0⟩,
      ⟨image.rows, image.cols, fun i j =>
        if (sr - image.rows) / 2 ≤ i + (sr - image.rows) / 2 ∧
            i + (sr - image.rows) / 2 < (sr - image.rows) / 2 + image.rows ∧
            (sc - image.cols) / 2 ≤ j + (sc - image.cols) / 2 ∧
            j + (sc - image.cols) / 2 < (sc - image.cols) / 2 + image.cols then
          image.px (i + (sr - image.rows) / 2 - (sr - image.rows) / 2)
            (j + (sc - image.cols) / 2 - (sc - image.cols) / 2)
        else 0⟩, ?_, ?_, ?_⟩
    · simp only [zero_pad, heq, if_false, hne, hlt, hpar, ite_false]
    · have heq2 : ¬ (sr = image.rows ∧ sc = image.cols) := by omega
      have hne2 : ¬ (image.rows = 0 ∨ image.cols = 0) := by omega
      have hlt2 : ¬ (sr < image.rows ∨ sc < image.cols) := by omega
      simp only [trim, heq2, if_false, hne2, hlt2, hpar, ite_false]
    · refine ⟨rfl, rfl, fun i hi j hj => ?_⟩
      have hi2 : i < image.rows := hi
      have hj2 : j < image.cols := hj
      have h1 : (sr - image.rows) / 2 ≤ i + (sr - image.rows) / 2 := by omega
      have h2 : i + (sr - image.rows) / 2 < (sr - image.rows) / 2 + image.rows := by omega
      have h3 : (sc - image.cols) / 2 ≤ j + (sc - image.cols) / 2 := by omega
      have h4 : j + (sc - image.cols) / 2 < (sc - image.cols) / 2 + image.cols := by omega
      have h5 : i + (sr - image.rows) / 2 - (sr - image.rows) / 2 = i := by omega
      have h6 : j + (sc - image.cols) / 2 - (sc - image.cols) / 2 = j := by omega
      show (if (sr - image.rows) / 2 ≤ i + (sr - image.rows) / 2 ∧
            i + (sr - image.rows) / 2 < (sr - image.rows) / 2 + image.rows ∧
            (sc - image.cols) / 2 ≤ j + (sc - image.cols) / 2 ∧
            j + (sc - image.cols) / 2 < (sc - image.cols) / 2 + image.cols then
          image.px (i + (sr - image.rows) / 2 - (sr - image.rows) / 2)
            (j + (sc - image.cols) / 2 - (sc - image.cols) / 2)
        else 0) = image.px i j
      rw [if_pos ⟨h1, h2, h3, h4⟩, h5, h6]

/-- Witness for C6: a 2-by-2 image padded to 4-by-4 and trimmed back. -/
theorem trim_zero_pad_roundtrip_witness :
    0 < (2:ℕ) ∧ 2 ≤ (4:ℕ) ∧ ((4:ℕ) - 2) % 2 = 0 ∧
      ∃ padded trimmed,
        zero_pad (⟨2, 2, fun i j => (10 * i + j : ℤ)⟩ : Img ℤ) 4 4 .center =
          Except.ok padded ∧
        trim padded 2 2 = Except.ok trimmed ∧
        trimmed.eqOn ⟨2, 2, fun i j => (10 * i + j : ℤ)⟩ :=
  ⟨by decide, by decide, by decide,
    trim_zero_pad_roundtrip (⟨2, 2, fun i j => (10 * i + j : ℤ)⟩ : Img ℤ) 4 4
      (by decide) (by decide) (by decide) (by decide) (by decide) (by decide)⟩

/-!  ### Unitary Fourier transforms (pypher.py lines 289-298) and
`psf2otf` (lines 301-355)

`np.fft.fft2` uses the primitive roots `exp (-2*pi*I/m)`, `exp (-2*pi*I/n)`
and `udft2`/`uidft2` the scale `norm = sqrt (image.size)`; these are
irrational, so the embedding carries them as the parameters of a
`FourierCtx` for a fixed grid size, together with the inverse quantities
numpy computes from them.  `FourierCtx.Unitary` below states exactly the
defining properties of those numbers, and concrete contexts (grid sizes
whose roots and scale are exact Gaussian rationals) instantiate them. -/

/-- Parameters of the numpy FFT machinery on an `m` by `n` grid over the
(idealised real) ring `R`:
* `wm`, `wn` model the forward primitive roots `exp (-2*pi*I/m)` and
  `exp (-2*pi*I/n)` used by `np.fft.fft2`;
* `wmInv`, `wnInv` model the inverse roots `exp (2*pi*I/m)`, `exp (2*pi*I/n)`
  used by `np.fft.ifft2`;
* `s` models `np.sqrt(image.size) = sqrt (m*n)` (the `norm` of `udft2` and
  `uidft2`), `sInv` the reciprocal `1 / sqrt (m*n)`, and `nInv` the factor
  `1 / (m*n)` by which `np.fft.ifft2` divides. -/
structure FourierCtx (R : Type) [CommRing R] where
  m : ℕ
  n : ℕ
  wm : Cplx R
  wn : Cplx R
  wmInv : Cplx R
  wnInv : Cplx R
  s : Cplx R
  sInv : Cplx R
  nInv : Cplx R

/-- The defining properties of the `FourierCtx` parameters: primitive
roots of unity of the two grid orders with their inverses, orthogonality
of the root characters, and the `sqrt (m*n)` scale with its inverse. -/
structure FourierCtx.Unitary {R : Type} [CommRing R] (ctx : FourierCtx R) : Prop where
  m_pos : 0 < ctx.m
  n_pos : 0 < ctx.n
  wm_pow : ctx.wm ^ ctx.m = 1
  wn_pow : ctx.wn ^ ctx.n = 1
  wm_inv : ctx.wm * ctx.wmInv = 1
  wn_inv : ctx.wn * ctx.wnInv = 1
  wm_orth : ∀ d, d < ctx.m → 0 < d → ∑ u ∈ Finset.range ctx.m, ctx.wm ^ (u * d) = 0
  wn_orth : ∀ d, d < ctx.n → 0 < d → ∑ v ∈ Finset.range ctx.n, ctx.wn ^ (v * d) = 0
  s_inv : ctx.s * ctx.sInv = 1
  size_inv : ((ctx.m * ctx.n : ℕ) : Cplx R) * ctx.nInv = 1
  s_sq : ctx.s * ctx.s = ((ctx.m * ctx.n : ℕ) : Cplx R)

variable {R : Type} [CommRing R]

/-- Model of `np.fft.fft2`: the 2-D discrete Fourier transform
`F[u,v] = sum_j sum_k f[j,k] * wm^(j*u) * wn^(k*v)` with the forward
roots; shape preserving. -/
def fft2 (ctx : FourierCtx R) (f : Img (Cplx R)) : Img (Cplx R) :=
  ⟨f.rows, f.cols, fun u v =>
    ∑ j ∈ Finset.range f.rows, ∑ k ∈ Finset.range f.cols,
      f.px j k * ctx.wm ^ (j * u) * ctx.wn ^ (k * v)⟩

/-- Model of `udft2` (lines 289-292): `np.fft.fft2(image) / norm` with
`norm = sqrt (image.size)`, modelled by multiplication with `ctx.sInv`. -/
def udft2 (ctx : FourierCtx R) (image : Img (Cplx R)) : Img (Cplx R) :=
  (fft2 ctx image).map (fun z => z * ctx.sInv)

/-- Model of `np.fft.ifft2`: inverse 2-D transform with the inverse roots, dividing
by the element count (`ctx.nInv`). -/
def ifft2 (ctx : FourierCtx R) (f : Img (Cplx R)) : Img (Cplx R) :=
  ⟨f.rows, f.cols, fun x y =>
    (∑ u ∈ Finset.range f.rows, ∑ v ∈ Finset.range f.cols,
      f.px u v * ctx.wmInv ^ (u * x) * ctx.wnInv ^ (v * y)) * ctx.nInv⟩

/-- Model of `uidft2` (lines 295-298): `np.fft.ifft2(image) * norm` with
`norm = sqrt (image.size)`, modelled by multiplication with `ctx.s`. -/
def uidft2 (ctx : FourierCtx R) (image : Img (Cplx R)) : Img (Cplx R) :=
  (ifft2 ctx image).map (fun z => z * ctx.s)

/-- Model of `np.real_if_close(otf, tol=n_ops)` (line 353): discards the imaginary
part when it is within a round-off tolerance of zero.  In the exact
arithmetic of this model there is no round-off, so the imaginary part
it would discard is exactly zero and the value of the array is
unchanged; only the (unmodelled) dtype changes.  Modelled as the
identity on values. -/
def real_if_close (otf : Img (Cplx R)) : Img (Cplx R) := otf

/-- Model of `psf2otf` (lines 301-355).  An identically-zero PSF short-circuits to
`np.zeros_like(psf)` — an all-zero array of the *PSF's own* shape.
Otherwise the PSF is corner-padded to the requested `(ctx.m, ctx.n)`
output shape, circularly shifted by `-(axis_size // 2)` along each axis
using the *original* (pre-pad) shape (`np.roll` by `-s` maps index `i`
to the value at `(i + s) % size`), transformed by `np.fft.fft2`, and
passed through `np.real_if_close`. -/
def psf2otf [DecidableEq R] (ctx : FourierCtx R) (psf : Img R) :
    Except PyErr (Img (Cplx R)) :=
  if psf.allZero then .ok ⟨psf.rows, psf.cols, fun _ _ => 0⟩
  else do
    let padded ← zero_pad psf ctx.m ctx.n .corner
    let rolled : Img R := ⟨padded.rows, padded.cols, fun i j =>
      padded.px ((i + psf.rows / 2) % padded.rows) ((j + psf.cols / 2) % padded.cols)⟩
    .ok (real_if_close (fft2 ctx rolled.ofReal))

/-!  ### Wiener deconvolution (pypher.py lines 362-437)

IEEE semantics of the Wiener division: the entries of both OTFs are
finite, so the denominator `abs(tf)**2 + reg_fact * abs(reg_op)**2` is a
finite real; dividing the finite numerator by it yields a finite complex
number unless the denominator is zero, in which case numpy produces a
non-finite value (`0/0 = NaN`, `x/0 = Inf`), modelled as `none`.  All
further arithmetic propagates `none` (IEEE NaN/Inf contagion). -/

/-- A complex value extended with the non-finite results of IEEE
arithmetic: `none` stands for any NaN/Inf-contaminated value. -/
abbrev NanC (R : Type) := Option (Cplx R)

/-- Addition on NaN-extended values: non-finite operands contaminate. -/
def NanC.add : NanC R → NanC R → NanC R
  | some a, some b => some (a + b)
  | _, _ => none

/-- Multiplication on NaN-extended values: non-finite operands contaminate. -/
def NanC.mul : NanC R → NanC R → NanC R
  | some a, some b => some (a * b)
  | _, _ => none

/-- Model of `np.real` on a NaN-extended complex value. -/
def NanC.re : NanC R → Option R
  | some a => some a.re
  | none => none

instance : Add (NanC R) := ⟨NanC.add⟩

instance : Zero (NanC R) := ⟨some 0⟩

instance : AddCommMonoid (NanC R) where
  add := (· + ·)
  zero := 0
  add_assoc a b c := by
    cases a <;> cases b <;> cases c <;> try rfl
    exact congrArg some (add_assoc _ _ _)
  zero_add a := by
    cases a <;> try rfl
    exact congrArg some (zero_add _)
  add_zero a := by
    cases a <;> try rfl
    exact congrArg some (add_zero _)
  add_comm a b := by
    cases a <;> cases b <;> try rfl
    exact congrArg some (add_comm _ _)
  nsmul := nsmulRec
  nsmul_zero _ := rfl
  nsmul_succ _ _ := rfl

/-- The 3-by-3 discrete Laplacian regularisation operator
(pypher.py lines 362-364). -/
def LAPLACIAN (R : Type) [CommRing R] : Img R :=
  ⟨3, 3, fun i j =>
    if i = 0 ∧ j = 0 then 0 else if i = 0 ∧ j = 1 then -1 else if i = 0 ∧ j = 2 then 0
    else if i = 1 ∧ j = 0 then -1 else if i = 1 ∧ j = 1 then 4 else if i = 1 ∧ j = 2 then -1
    else if i = 2 ∧ j = 0 then 0 else if i = 2 ∧ j = 1 then -1 else if i = 2 ∧ j = 2 then 0
    else 0⟩

/-- Model of `deconv_wiener` (lines 367-397): both OTFs are built at the PSF's own
shape (the grid of `ctx`), and the filter is
`conj(trans_func) / (abs(trans_func)**2 + reg_fact * abs(reg_op)**2)`,
a complex numerator divided componentwise by a real denominator; a zero
denominator yields a non-finite entry (`none`). -/
def deconv_wiener [Field R] [DecidableEq R] (ctx : FourierCtx R) (psf : Img R)
    (reg_fact : R) : Except PyErr (Img (NanC R)) := do
  let trans_func ← psf2otf ctx psf
  let reg_op ← psf2otf ctx (LAPLACIAN R)
  .ok (Img.zipWith (fun t g =>
    let denom := Cplx.abs2 t + reg_fact * Cplx.abs2 g
    if denom = 0 then none
    else some ⟨(Cplx.conj t).re / denom, (Cplx.conj t).im / denom⟩)
    trans_func reg_op)

/-- Model of `np.fft.ifft2` lifted to NaN-extended entries (the spectrum that
enters it has passed through the Wiener division, so it may contain
non-finite values; the FFT sums mix every input entry into every output
entry, propagating them). -/
def ifft2N (ctx : FourierCtx R) (f : Img (NanC R)) : Img (NanC R) :=
  ⟨f.rows, f.cols, fun x y =>
    NanC.mul
      (∑ u ∈ Finset.range f.rows, ∑ v ∈ Finset.range f.cols,
        NanC.mul (f.px u v) (some (ctx.wmInv ^ (u * x) * ctx.wnInv ^ (v * y))))
      (some ctx.nInv)⟩

/-- Model of `uidft2` lifted to NaN-extended entries. -/
def uidft2N (ctx : FourierCtx R) (image : Img (NanC R)) : Img (NanC R) :=
  (ifft2N ctx image).map (fun z => NanC.mul z (some ctx.s))

/-- Model of `homogenization_kernel` (lines 400-437).  The deconvolution kernel in
Fourier space is `wiener * udft2(psf_target)`; the image-domain kernel is
`np.real(uidft2(kernel_fourier))`.  Line 435 executes
`kernel_image.clip(-1, 1)` — `numpy.ndarray.clip` returns a *new* clipped
array and the statement discards it — so the returned `kernel_image` is
identical whether `clip` is true or false; the `clip` parameter is
accepted and has no effect on the result. -/
def homogenization_kernel [Field R] [DecidableEq R] (ctx : FourierCtx R)
    (psf_target psf_source : Img R) (reg_fact : R) (clip : Bool) :
    Except PyErr (Img (Option R) × Img (NanC R)) := do
  let wiener ← deconv_wiener ctx psf_source reg_fact
  let kernel_fourier : Img (NanC R) :=
    Img.zipWith (fun w t => NanC.mul w (some t)) wiener (udft2 ctx psf_target.ofReal)
  let kernel_image : Img (Option R) := (uidft2N ctx kernel_fourier).map NanC.re
  let _ := clip
  .ok (kernel_image, kernel_fourier)

/-!  ### `deconv_unsup_wiener` (pypher.py lines 440-560)

The Gibbs sampler draws `npr.standard_normal` and `npr.gamma` variates,
so its numeric iterates are not shallowly embeddable; the parts modelled
here are exactly the deterministic ones the claims are about: the
settings resolution (lines 475-477), the `delta`/early-stop control flow
(lines 489-490 and 527-543) with the sampled quantities abstracted as an
oracle, and the construction of the returned result bundle
(lines 552-560) with `np.std` abstracted as a function parameter. -/

/-- The algorithm settings dictionary: keys `threshold`, `max_iter`,
`min_iter`, `burnin`. -/
structure PySettings where
  threshold : ℚ
  max_iter : ℕ
  min_iter : ℕ
  burnin : ℕ
deriving DecidableEq

/-- The defaults of line 475-476. -/
def default_settings : PySettings := ⟨1 / 10000, 200, 100, 30⟩

/-- Line 477: `settings = settings.update(user_settings) if user_settings
else settings`.  Python's `dict.update` mutates its receiver and returns
`None`, so when a (non-empty, hence truthy) `user_settings` is supplied
the conditional expression rebinds `settings` to `None`; `none` of the
argument models an absent (or empty, falsy) user dictionary. -/
def unsup_settings_resolution (user_settings : Option PySettings) :
    Option PySettings :=
  match user_settings with
  | some _ => none
  | none => some default_settings

/-- The value of `settings` actually used by the rest of
`deconv_unsup_wiener`: the first subscript `settings['max_iter']`
(line 504) raises `TypeError: NoneType object is not subscriptable` when
the resolution produced `None`. -/
def deconv_unsup_wiener_settings (user_settings : Option PySettings) :
    Except PyErr PySettings :=
  match unsup_settings_resolution user_settings with
  | none => .error .typeErr
  | some s => .ok s

/-- Claim C4, failing behaviour: the exact user settings of the claim
(`max_iter=50, min_iter=10, burnin=5, threshold=1.0`) make line 477 bind
`settings` to `None`, and the sampler raises `TypeError` before its first
iteration instead of terminating with a regularisation estimate. -/
theorem deconv_unsup_wiener_user_settings_crash :
    deconv_unsup_wiener_settings (some ⟨1, 50, 10, 5⟩) = Except.error PyErr.typeErr :=
  rfl

/-!  The `delta` / early-stop control flow (lines 489-490, 527-543).

`delta` is initialised to `np.NAN` (line 490) and reassigned only inside
`if iteration > settings['burnin'] + 1` (lines 530-536); the value it
would then receive depends on the random draws and is abstracted as an
oracle `ℕ → Option ℚ` (the computed `delta` may itself be NaN when
`norm` is zero, hence `Option`).  The loop breaks when
`iteration > min_iter and delta < threshold` (lines 541-543); an IEEE
comparison of NaN with any number is false. -/

/-- The value held by `delta` at the stopping test of iteration `i`
(after the lines 530-536 update of that same iteration). -/
def deltaAfter (st : PySettings) (oracle : ℕ → Option ℚ) : ℕ → Option ℚ
  | 0 => if 0 > st.burnin + 1 then oracle 0 else none
  | i + 1 => if i + 1 > st.burnin + 1 then oracle (i + 1) else deltaAfter st oracle i

/-- The IEEE comparison `delta < threshold`: false whenever `delta` is NaN. -/
def nanLt (delta : Option ℚ) (threshold : ℚ) : Bool :=
  match delta with
  | none => false
  | some d => decide (d < threshold)

/-- The stopping test of lines 541-543:
`(iteration > settings['min_iter']) and (delta < settings['threshold'])`. -/
def earlyStop (st : PySettings) (iteration : ℕ) (delta : Option ℚ) : Bool :=
  decide (iteration > st.min_iter) && nanLt delta st.threshold

/-- Claim C10: for every configuration and every behaviour of the sampled
quantities, at any iteration `i ≤ burnin + 1` the convergence statistic
is still the initial NaN and the early-stop branch cannot fire,
regardless of `min_iter` and `threshold`. -/
theorem delta_nan_no_early_stop (st : PySettings) (oracle : ℕ → Option ℚ)
    (i : ℕ) (hi : i ≤ st.burnin + 1) :
    deltaAfter st oracle i = none ∧ earlyStop st i (deltaAfter st oracle i) = false := by
  have hnone : deltaAfter st oracle i = none := by
    induction i with
    | zero => simp [deltaAfter]
    | succ k ih =>
      have hk : ¬ (k + 1 > st.burnin + 1) := by omega
      simp only [deltaAfter, hk, if_false]
      exact ih (by omega)
  refine ⟨hnone, ?_⟩
  rw [hnone]
  simp [earlyStop, nanLt]

/-- Witness for C10: the claim's own configuration
(`threshold=1.0, max_iter=50, min_iter=10, burnin=5`, an oracle that
always reports a tiny `delta`) at iteration `6 = burnin + 1`. -/
theorem delta_nan_no_early_stop_witness :
    (6 : ℕ) ≤ (⟨1, 50, 10, 5⟩ : PySettings).burnin + 1 ∧
      deltaAfter ⟨1, 50, 10, 5⟩ (fun _ => some 0) 6 = none ∧
      earlyStop ⟨1, 50, 10, 5⟩ 6 (deltaAfter ⟨1, 50, 10, 5⟩ (fun _ => some 0) 6) = false :=
  ⟨by decide, delta_nan_no_early_stop ⟨1, 50, 10, 5⟩ (fun _ => some 0) 6 (by decide)⟩

/-!  The returned bundle (lines 552-560). -/

/-- Model of `np.mean` of a chain tail (an exact rational mean; the chains are
non-empty because they start from `[1]`). -/
def npMean (l : List ℚ) : ℚ := l.sum / l.length

/-- The result bundle of `deconv_unsup_wiener`: the tuple element and the
`extra` dictionary of lines 552-560. -/
structure UnsupResult where
  reg_val : ℚ
  noise : ℚ
  prior : ℚ
  noise_uncertainty : ℚ
  prior_uncertainty : ℚ
  regul_uncertainty : ℚ

/-- Lines 552-560, as functions of the two chains.  `np.std` involves a
real square root, so it is abstracted as the parameter `stdF`; which
*chain* each field is computed from is taken verbatim from the source:
every `extra` field except the unused `gx` mean is computed from
`gn_chain` (the noise chain), and `regul_uncertainty` divides the noise
standard deviation by itself. -/
def unsup_result (stdF : List ℚ → ℚ) (burnin : ℕ)
    (gn_chain gx_chain : List ℚ) : UnsupResult :=
  { reg_val := npMean (gx_chain.drop burnin) / npMean (gn_chain.drop burnin)
    noise := npMean (gn_chain.drop burnin)
    prior := npMean (gn_chain.drop burnin)
    noise_uncertainty := stdF (gn_chain.drop burnin)
    prior_uncertainty := stdF (gn_chain.drop burnin)
    regul_uncertainty := stdF (gn_chain.drop burnin) / stdF (gn_chain.drop burnin) }

/-- Claim C8: the `prior` and `prior_uncertainty` fields of the bundle
coincide with the `noise` and `noise_uncertainty` fields — both are the
mean and standard deviation of the post-burn-in *noise* chain `gn_chain`,
not of the prior chain `gx_chain` — and `regul_uncertainty` is the ratio
of the noise standard deviation to itself, equal to `1` whenever that
standard deviation is nonzero. -/
theorem unsup_result_fields (stdF : List ℚ → ℚ) (burnin : ℕ)
    (gn_chain gx_chain : List ℚ) :
    (unsup_result stdF burnin gn_chain gx_chain).prior =
        npMean (gn_chain.drop burnin) ∧
      (unsup_result stdF burnin gn_chain gx_chain).prior =
        (unsup_result stdF burnin gn_chain gx_chain).noise ∧
      (unsup_result stdF burnin gn_chain gx_chain).prior_uncertainty =
        stdF (gn_chain.drop burnin) ∧
      (unsup_result stdF burnin gn_chain gx_chain).prior_uncertainty =
        (unsup_result stdF burnin gn_chain gx_chain).noise_uncertainty ∧
      (stdF (gn_chain.drop burnin) ≠ 0 →
        (unsup_result stdF burnin gn_chain gx_chain).regul_uncertainty = 1) :=
  ⟨rfl, rfl, rfl, rfl, fun h => div_self h⟩

/-- Witness for C8: concrete chains with burn-in 1 and a standard
deviation hard-wired to 5. -/
theorem unsup_result_fields_witness :
    (unsup_result (fun _ => 5) 1 [1, 2, 4] [1, 3]).prior = npMean [2, 4] ∧
      (unsup_result (fun _ => 5) 1 [1, 2, 4] [1, 3]).regul_uncertainty = 1 :=
  ⟨(unsup_result_fields (fun _ => 5) 1 [1, 2, 4] [1, 3]).1,
    (unsup_result_fields (fun _ => 5) 1 [1, 2, 4] [1, 3]).2.2.2.2 (by norm_num)⟩

/-!  ### Shape contract of `psf2otf` (claim C9) -/

/-- Claim C9: `psf2otf` has two different output-shape contracts.  On an
identically-zero PSF it returns `np.zeros_like(psf)` — an all-zero array
of the *PSF's own* shape, ignoring the requested output shape — while on
any non-zero PSF (that fits in the requested shape) it returns an array
of the requested output shape. -/
theorem psf2otf_zero_shape_contract [DecidableEq R] (ctx : FourierCtx R)
    (psf q : Img R) (hz : psf.allZero = true) (hq : q.allZero = false)
    (hm : 0 < ctx.m) (hn : 0 < ctx.n) (hqr : q.rows ≤ ctx.m) (hqc : q.cols ≤ ctx.n) :
    (∃ z, psf2otf ctx psf = Except.ok z ∧ z.rows = psf.rows ∧ z.cols = psf.cols ∧
        ∀ i j, z.px i j = 0) ∧
      (∃ o, psf2otf ctx q = Except.ok o ∧ o.rows = ctx.m ∧ o.cols = ctx.n) := by
  constructor
  · exact ⟨⟨psf.rows, psf.cols, fun _ _ => 0⟩, by simp [psf2otf, hz], rfl, rfl,
      fun i j => rfl⟩
  · obtain ⟨P, hP, hPr, hPc⟩ :
        ∃ P, zero_pad q ctx.m ctx.n .corner = Except.ok P ∧
          P.rows = ctx.m ∧ P.cols = ctx.n := by
      by_cases heq : q.rows = ctx.m ∧ q.cols = ctx.n
      · exact ⟨q, by simp [zero_pad, heq], heq.1, heq.2⟩
      · have hne : ¬ (ctx.m = 0 ∨ ctx.n = 0) := by omega
        have hlt : ¬ (ctx.m < q.rows ∨ ctx.n < q.cols) := by omega
        exact ⟨⟨ctx.m, ctx.n, fun i j => if i < q.rows ∧ j < q.cols then q.px i j else 0⟩,
          by simp [zero_pad, heq, hne, hlt], rfl, rfl⟩
    refine ⟨real_if_close (fft2 ctx (Img.ofReal ⟨P.rows, P.cols, fun i j =>
        P.px ((i + q.rows / 2) % P.rows) ((j + q.cols / 2) % P.cols)⟩)), ?_, hPr, hPc⟩
    simp only [psf2otf, hq, Bool.false_eq_true, if_false, hP]
    rfl

/-- The Fourier context of a 4-by-4 grid, where all FFT quantities are
exact Gaussian rationals: the forward primitive root
`exp (-2*pi*I/4) = -I`, the inverse root `I`, and
`norm = sqrt 16 = 4`. -/
def ctx4 : FourierCtx ℚ :=
  ⟨4, 4, ⟨0, -1⟩, ⟨0, -1⟩, ⟨0, 1⟩, ⟨0, 1⟩, ⟨4, 0⟩, ⟨1 / 4, 0⟩, ⟨1 / 16, 0⟩⟩

/-- A 2-by-3 all-zero PSF, used to exercise the zero branch of `psf2otf`. -/
def zeroPsf23 : Img ℚ := Img.zeroImg ℚ 2 3

/-- A 2-by-2 single-impulse PSF, used to exercise the general branch. -/
def impulsePsf22 : Img ℚ := ⟨2, 2, fun i j => if i = 0 ∧ j = 0 then 1 else 0⟩

/-- Witness for C9: on the 4-by-4 grid, the zero branch answers with the
2-by-3 input shape while the general branch answers with the 4-by-4
requested shape. -/
theorem psf2otf_zero_shape_contract_witness :
    zeroPsf23.allZero = true ∧ impulsePsf22.allZero = false ∧
      ((∃ z, psf2otf ctx4 zeroPsf23 = Except.ok z ∧ z.rows = zeroPsf23.rows ∧
          z.cols = zeroPsf23.cols ∧ ∀ i j, z.px i j = 0) ∧
        (∃ o, psf2otf ctx4 impulsePsf22 = Except.ok o ∧ o.rows = ctx4.m ∧
          o.cols = ctx4.n)) :=
  ⟨by with_unfolding_all decide, by with_unfolding_all decide,
    psf2otf_zero_shape_contract ctx4 zeroPsf23 impulsePsf22
      (by with_unfolding_all decide) (by with_unfolding_all decide)
      (by decide) (by decide) (by decide) (by decide)⟩

/-!  ### Unitary round trip (claim C7) -/

/-- Powers of a root of unity depend on the exponent only modulo the order. -/
theorem pow_emod_of_pow_eq_one {M : Type} [Monoid M] (w : M) (m : ℕ)
    (hw : w ^ m = 1) (e : ℕ) : w ^ e = w ^ (e % m) := by
  conv_lhs => rw [← Nat.div_add_mod e m]
  rw [pow_add, pow_mul, hw, one_pow, one_mul]

/-- A two-sided inverse of a root of unity is its `m - 1` power. -/
theorem inv_root_eq_pow {M : Type} [CommMonoid M] (w wi : M) (m : ℕ) (hm : 0 < m)
    (hw : w ^ m = 1) (hinv : w * wi = 1) : wi = w ^ (m - 1) := by
  have hm1 : m - 1 + 1 = m := by omega
  calc wi = 1 * wi := (one_mul wi).symm
    _ = w ^ m * wi := by rw [hw]
    _ = w ^ (m - 1 + 1) * wi := by rw [hm1]
    _ = w ^ (m - 1) * w * wi := by rw [pow_succ]
    _ = w ^ (m - 1) * (w * wi) := by rw [mul_assoc]
    _ = w ^ (m - 1) := by rw [hinv, mul_one]

/-- Orthogonality of the DFT kernel: summing `w^(j*u) * wi^(u*x)` over one
period collapses to `m` on the diagonal and `0` off it. -/
theorem dft_kernel_sum (w wi : Cplx R) (m : ℕ) (hm : 0 < m)
    (hw : w ^ m = 1) (hinv : w * wi = 1)
    (horth : ∀ d, d < m → 0 < d → ∑ u ∈ Finset.range m, w ^ (u * d) = 0)
    (j x : ℕ) (hj : j < m) (hx : x < m) :
    ∑ u ∈ Finset.range m, w ^ (j * u) * wi ^ (u * x) =
      if j = x then (m : Cplx R) else 0 := by
  have hwi := inv_root_eq_pow w wi m hm hw hinv
  have hterm : ∀ u, w ^ (j * u) * wi ^ (u * x) =
      w ^ (u * ((j + (m - 1) * x) % m)) := by
    intro u
    rw [hwi, ← pow_mul, ← pow_add]
    have h1 : j * u + (m - 1) * (u * x) = u * (j + (m - 1) * x) := by ring
    rw [h1, pow_emod_of_pow_eq_one w m hw (u * (j + (m - 1) * x)),
      pow_emod_of_pow_eq_one w m hw (u * ((j + (m - 1) * x) % m))]
    congr 1
    rw [Nat.mul_mod u (j + (m - 1) * x) m, Nat.mul_mod u ((j + (m - 1) * x) % m) m,
      Nat.mod_mod_of_dvd _ (dvd_refl m)]
  rw [Finset.sum_congr rfl fun u _ => hterm u]
  by_cases hjx : j = x
  · subst hjx
    have hd0 : (j + (m - 1) * j) % m = 0 := by
      have h2 : j + (m - 1) * j = m * j := by
        rw [Nat.sub_one_mul]
        have hjm : j ≤ m * j := Nat.le_mul_of_pos_left j hm
        omega
      rw [h2, Nat.mul_mod_right]
    rw [if_pos rfl]
    simp [hd0]
  · rw [if_neg hjx]
    have hdm : (j + (m - 1) * x) % m < m := Nat.mod_lt _ hm
    have hd0 : 0 < (j + (m - 1) * x) % m := by
      rcases Nat.eq_zero_or_pos ((j + (m - 1) * x) % m) with h0 | h0
      · exfalso
        have hdvd : m ∣ j + (m - 1) * x := Nat.dvd_of_mod_eq_zero h0
        haveI : NeZero m := ⟨by omega⟩
        have hcast : ((j + (m - 1) * x : ℕ) : ZMod m) = 0 :=
          (ZMod.natCast_zmod_eq_zero_iff_dvd _ _).mpr hdvd
        have hm1 : ((m - 1 : ℕ) : ZMod m) = -1 := by
          rw [Nat.cast_sub (by omega : 1 ≤ m), Nat.cast_one, ZMod.natCast_self, zero_sub]
        rw [Nat.cast_add, Nat.cast_mul, hm1] at hcast
        have hjx2 : (j : ZMod m) = (x : ZMod m) := by linear_combination hcast
        have : j = x := by
          rw [← ZMod.val_cast_of_lt (n := m) hj, ← ZMod.val_cast_of_lt (n := m) hx, hjx2]
        exact hjx this
      · exact h0
    exact horth _ hdm hd0

/-- Inversion of one transform axis: analysing with the forward root and
resynthesising with the inverse root recovers `m` times the line. -/
theorem dft_inv_line (w wi : Cplx R) (m : ℕ) (hm : 0 < m)
    (hw : w ^ m = 1) (hinv : w * wi = 1)
    (horth : ∀ d, d < m → 0 < d → ∑ u ∈ Finset.range m, w ^ (u * d) = 0)
    (h : ℕ → Cplx R) (x : ℕ) (hx : x < m) :
    ∑ u ∈ Finset.range m, (∑ j ∈ Finset.range m, h j * w ^ (j * u)) * wi ^ (u * x) =
      (m : Cplx R) * h x := by
  have hswap : ∑ u ∈ Finset.range m,
        (∑ j ∈ Finset.range m, h j * w ^ (j * u)) * wi ^ (u * x) =
      ∑ j ∈ Finset.range m, h j * ∑ u ∈ Finset.range m, w ^ (j * u) * wi ^ (u * x) := by
    simp_rw [Finset.sum_mul, Finset.mul_sum]
    rw [Finset.sum_comm]
    exact Finset.sum_congr rfl fun j _ => Finset.sum_congr rfl fun u _ => by ring
  rw [hswap,
    Finset.sum_congr rfl fun j hj2 => by
      rw [dft_kernel_sum w wi m hm hw hinv horth j x (Finset.mem_range.mp hj2) hx],
    Finset.sum_eq_single x]
  · rw [if_pos rfl]; ring
  · intro b _ hbx; rw [if_neg hbx, mul_zero]
  · intro hxnot; exact absurd (Finset.mem_range.mpr hx) hxnot

/-- Claim C7: for every real image of the grid shape and every choice of
FFT parameters satisfying their defining properties, the real part of
`uidft2 (udft2 image)` is the original image. -/
theorem udft2_uidft2_roundtrip (ctx : FourierCtx R) (hu : ctx.Unitary)
    (f : Img R) (hr : f.rows = ctx.m) (hc : f.cols = ctx.n) :
    ∀ x, x < f.rows → ∀ y, y < f.cols →
      ((uidft2 ctx (udft2 ctx f.ofReal)).px x y).re = f.px x y := by
  obtain ⟨hm, hn, hwm, hwn, hwmi, hwni, hom, hon, hsi, hni, _⟩ := hu
  intro x hx y hy
  rw [hr] at hx
  rw [hc] at hy
  have hmain : (uidft2 ctx (udft2 ctx f.ofReal)).px x y = Cplx.ofReal (f.px x y) := by
    show ((∑ u ∈ Finset.range f.rows, ∑ v ∈ Finset.range f.cols,
        ((∑ j ∈ Finset.range f.rows, ∑ k ∈ Finset.range f.cols,
          Cplx.ofReal (f.px j k) * ctx.wm ^ (j * u) * ctx.wn ^ (k * v)) * ctx.sInv)
          * ctx.wmInv ^ (u * x) * ctx.wnInv ^ (v * y)) * ctx.nInv) * ctx.s
      = Cplx.ofReal (f.px x y)
    rw [hr, hc]
    have hg : ∀ u v, (∑ j ∈ Finset.range ctx.m, ∑ k ∈ Finset.range ctx.n,
          Cplx.ofReal (f.px j k) * ctx.wm ^ (j * u) * ctx.wn ^ (k * v))
        = ∑ k ∈ Finset.range ctx.n,
            (∑ j ∈ Finset.range ctx.m, Cplx.ofReal (f.px j k) * ctx.wm ^ (j * u))
              * ctx.wn ^ (k * v) := by
      intro u v
      rw [Finset.sum_comm]
      exact Finset.sum_congr rfl fun k _ => (Finset.sum_mul _ _ _).symm
    simp only [hg]
    have hB : ∀ u, (∑ v ∈ Finset.range ctx.n,
          ((∑ k ∈ Finset.range ctx.n,
            (∑ j ∈ Finset.range ctx.m, Cplx.ofReal (f.px j k) * ctx.wm ^ (j * u))
              * ctx.wn ^ (k * v)) * ctx.sInv) * ctx.wmInv ^ (u * x) * ctx.wnInv ^ (v * y))
        = (∑ v ∈ Finset.range ctx.n,
            (∑ k ∈ Finset.range ctx.n,
              (∑ j ∈ Finset.range ctx.m, Cplx.ofReal (f.px j k) * ctx.wm ^ (j * u))
                * ctx.wn ^ (k * v)) * ctx.wnInv ^ (v * y))
            * (ctx.sInv * ctx.wmInv ^ (u * x)) := by
      intro u
      rw [Finset.sum_mul]
      exact Finset.sum_congr rfl fun v _ => by ring
    rw [Finset.sum_congr rfl fun u _ => hB u]
    have hC : ∀ u, (∑ v ∈ Finset.range ctx.n,
          (∑ k ∈ Finset.range ctx.n,
            (∑ j ∈ Finset.range ctx.m, Cplx.ofReal (f.px j k) * ctx.wm ^ (j * u))
              * ctx.wn ^ (k * v)) * ctx.wnInv ^ (v * y))
        = (ctx.n : Cplx R) *
            (∑ j ∈ Finset.range ctx.m, Cplx.ofReal (f.px j y) * ctx.wm ^ (j * u)) :=
      fun u => dft_inv_line ctx.wn ctx.wnInv ctx.n hn hwn hwni hon
        (fun k => ∑ j ∈ Finset.range ctx.m, Cplx.ofReal (f.px j k) * ctx.wm ^ (j * u)) y hy
    rw [Finset.sum_congr rfl fun u _ =>
      congrArg (fun z => z * (ctx.sInv * ctx.wmInv ^ (u * x))) (hC u)]
    have hD : (∑ u ∈ Finset.range ctx.m,
          ((ctx.n : Cplx R) *
            (∑ j ∈ Finset.range ctx.m, Cplx.ofReal (f.px j y) * ctx.wm ^ (j * u)))
            * (ctx.sInv * ctx.wmInv ^ (u * x)))
        = (∑ u ∈ Finset.range ctx.m,
            (∑ j ∈ Finset.range ctx.m, Cplx.ofReal (f.px j y) * ctx.wm ^ (j * u))
              * ctx.wmInv ^ (u * x)) * ((ctx.n : Cplx R) * ctx.sInv) := by
      rw [Finset.sum_mul]
      exact Finset.sum_congr rfl fun u _ => by ring
    rw [hD, dft_inv_line ctx.wm ctx.wmInv ctx.m hm hwm hwmi hom
      (fun j => Cplx.ofReal (f.px j y)) x hx]
    have hmn : (ctx.m : Cplx R) * (ctx.n : Cplx R) = ((ctx.m * ctx.n : ℕ) : Cplx R) := by
      push_cast
      ring
    calc ((ctx.m : Cplx R) * Cplx.ofReal (f.px x y)) * ((ctx.n : Cplx R) * ctx.sInv)
          * ctx.nInv * ctx.s
        = Cplx.ofReal (f.px x y) * (((ctx.m : Cplx R) * (ctx.n : Cplx R)) * ctx.nInv)
            * (ctx.s * ctx.sInv) := by ring
      _ = Cplx.ofReal (f.px x y) := by rw [hmn, hni, hsi, mul_one, mul_one]
  rw [hmain]
  rfl

/-- The Fourier context of a 2-by-2 grid over `ℚ`: both primitive roots
are `exp (-2*pi*I/2) = -1`, and `norm = sqrt 4 = 2`. -/
def ctx2 : FourierCtx ℚ :=
  ⟨2, 2, ⟨-1, 0⟩, ⟨-1, 0⟩, ⟨-1, 0⟩, ⟨-1, 0⟩, ⟨2, 0⟩, ⟨1 / 2, 0⟩, ⟨1 / 4, 0⟩⟩

/-- The 2-by-2 context satisfies the defining properties of the FFT
parameters. -/
theorem ctx2_unitary : ctx2.Unitary := by
  constructor <;> with_unfolding_all decide

/-- Witness for C7: the round trip on a concrete 2-by-2 image. -/
theorem udft2_uidft2_roundtrip_witness :
    ((⟨2, 2, fun i j => (2 * i + 3 * j : ℚ)⟩ : Img ℚ).rows = ctx2.m) ∧
      (∀ x, x < 2 → ∀ y, y < 2 →
        ((uidft2 ctx2 (udft2 ctx2 (⟨2, 2, fun i j => (2 * i + 3 * j : ℚ)⟩ : Img ℚ).ofReal)).px
            x y).re = (2 * x + 3 * y : ℚ)) :=
  ⟨rfl, udft2_uidft2_roundtrip ctx2 ctx2_unitary
    (⟨2, 2, fun i j => (2 * i + 3 * j : ℚ)⟩ : Img ℚ) rfl rfl⟩

/-!  ### `deconv_wiener` on an all-zero PSF (claim C3) -/

/-- Summing a function over one full period of shifted-mod indices gives
the plain sum (circular shifts preserve array totals). -/
theorem sum_range_shift_mod {M : Type} [AddCommMonoid M] (m s : ℕ) (hm : 0 < m)
    (g : ℕ → M) : ∑ i ∈ Finset.range m, g ((i + s) % m) = ∑ i ∈ Finset.range m, g i := by
  haveI : NeZero m := ⟨by omega⟩
  rw [← Fin.sum_univ_eq_sum_range (fun i => g ((i + s) % m)) m,
    ← Fin.sum_univ_eq_sum_range g m]
  have hc : ∀ i : Fin m, g ((i.val + s) % m) = g ((i + (⟨s % m, Nat.mod_lt s hm⟩ : Fin m)).val) := by
    intro i
    congr 1
    rw [Fin.val_add]
    conv_lhs => rw [Nat.add_mod, Nat.mod_eq_of_lt i.isLt]
  rw [Finset.sum_congr rfl fun i _ => hc i]
  exact Equiv.sum_comp (Equiv.addRight (⟨s % m, Nat.mod_lt s hm⟩ : Fin m)) (fun i => g i.val)

/-- Outside its 3-by-3 support the Laplacian array formula is zero. -/
theorem laplacian_px_outside (i j : ℕ) (h : ¬ (i < 3 ∧ j < 3)) :
    (LAPLACIAN R).px i j = 0 := by
  simp only [LAPLACIAN]
  split_ifs <;> first | rfl | omega

/-- The nine Laplacian entries sum to zero (4 in the centre against four
`-1` neighbours) — the DC component of its OTF therefore vanishes. -/
theorem laplacian_sum_zero :
    ∑ j ∈ Finset.range 3, ∑ k ∈ Finset.range 3,
      Cplx.ofReal ((LAPLACIAN R).px j k) = 0 := by
  simp only [Finset.sum_range_succ, Finset.sum_range_zero, LAPLACIAN]
  norm_num
  ext <;> simp [Cplx.ofReal] <;> ring

/-- Claim C3, counterexample: on a 4-by-4 grid, the Wiener filter built
from an all-zero PSF with the default regularisation factor `1e-4` has a
*non-finite* entry at the zero frequency (the denominator
`abs(0)**2 + reg_fact * abs(OTF_Laplacian)**2` vanishes there because the
Laplacian entries sum to zero), refuting "zero everywhere and no
NaN/Inf". -/
theorem deconv_wiener_zero_psf_nan :
    Except.map (fun w => w.px 0 0)
      (deconv_wiener ctx4 (Img.zeroImg ℚ 4 4) (1 / 10000)) = Except.ok none := by
  with_unfolding_all decide

/-- Claim C3 as amended: for every grid at least 3-by-3, every FFT
parameter choice and every regularisation factor, `deconv_wiener` on an
all-zero PSF returns an array whose entries are all `0` *or non-finite*;
in particular the zero-frequency entry is the non-finite `0/0`. -/
theorem deconv_wiener_zero_psf_amended {F : Type} [Field F] [DecidableEq F] [CharZero F]
    (ctx : FourierCtx F) (hm : 3 ≤ ctx.m) (hn : 3 ≤ ctx.n) (r : F) :
    ∃ w, deconv_wiener ctx (Img.zeroImg F ctx.m ctx.n) r = Except.ok w ∧
      w.px 0 0 = none ∧ ∀ u v, w.px u v = none ∨ w.px u v = some 0 := by
  have hz : (Img.zeroImg F ctx.m ctx.n).allZero = true := by
    simp [Img.allZero, Img.zeroImg]
  have hT : psf2otf ctx (Img.zeroImg F ctx.m ctx.n) =
      Except.ok ⟨ctx.m, ctx.n, fun _ _ => 0⟩ := by
    rw [psf2otf, if_pos hz]
    rfl
  have hlz : (LAPLACIAN F).allZero = false := by
    simp only [Img.allZero, decide_eq_false_iff_not]
    intro hall
    have h4 := hall 1 (by show (1:ℕ) < 3; norm_num) 1 (by show (1:ℕ) < 3; norm_num)
    norm_num [LAPLACIAN] at h4
  obtain ⟨P, hP, hPr, hPc, hPpx⟩ :
      ∃ P, zero_pad (LAPLACIAN F) ctx.m ctx.n .corner = Except.ok P ∧
        P.rows = ctx.m ∧ P.cols = ctx.n ∧
        ∀ i j, P.px i j = if i < 3 ∧ j < 3 then (LAPLACIAN F).px i j else 0 := by
    by_cases heq : (LAPLACIAN F).rows = ctx.m ∧ (LAPLACIAN F).cols = ctx.n
    · refine ⟨LAPLACIAN F, by simp [zero_pad, heq], heq.1, heq.2, fun i j => ?_⟩
      by_cases hij : i < 3 ∧ j < 3
      · rw [if_pos hij]
      · rw [if_neg hij, laplacian_px_outside i j hij]
    · have hne : ¬ (ctx.m = 0 ∨ ctx.n = 0) := by omega
      have hlt : ¬ (ctx.m < (LAPLACIAN F).rows ∨ ctx.n < (LAPLACIAN F).cols) := by
        show ¬ (ctx.m < 3 ∨ ctx.n < 3)
        omega
      exact ⟨⟨ctx.m, ctx.n, fun i j =>
          if i < (LAPLACIAN F).rows ∧ j < (LAPLACIAN F).cols then (LAPLACIAN F).px i j else 0⟩,
        by simp [zero_pad, heq, hne, hlt], rfl, rfl, fun i j => rfl⟩
  have hG : psf2otf ctx (LAPLACIAN F) =
      Except.ok (real_if_close (fft2 ctx (Img.ofReal ⟨P.rows, P.cols, fun i j =>
        P.px ((i + (LAPLACIAN F).rows / 2) % P.rows)
          ((j + (LAPLACIAN F).cols / 2) % P.cols)⟩))) := by
    simp only [psf2otf, hlz, Bool.false_eq_true, if_false, hP]
    rfl
  have hmP : 0 < P.rows := by omega
  have hnP : 0 < P.cols := by omega
  have hG00 : (real_if_close (fft2 ctx (Img.ofReal ⟨P.rows, P.cols, fun i j =>
      P.px ((i + (LAPLACIAN F).rows / 2) % P.rows)
        ((j + (LAPLACIAN F).cols / 2) % P.cols)⟩))).px 0 0 = 0 := by
    show (∑ j ∈ Finset.range P.rows, ∑ k ∈ Finset.range P.cols,
      Cplx.ofReal (P.px ((j + (LAPLACIAN F).rows / 2) % P.rows)
        ((k + (LAPLACIAN F).cols / 2) % P.cols)) * ctx.wm ^ (j * 0) * ctx.wn ^ (k * 0)) = 0
    have hlr : (LAPLACIAN F).rows / 2 = 1 := by norm_num [LAPLACIAN]
    have hlc : (LAPLACIAN F).cols / 2 = 1 := by norm_num [LAPLACIAN]
    have hpow : ∀ j k : ℕ, Cplx.ofReal (P.px ((j + (LAPLACIAN F).rows / 2) % P.rows)
          ((k + (LAPLACIAN F).cols / 2) % P.cols)) * ctx.wm ^ (j * 0) * ctx.wn ^ (k * 0)
        = Cplx.ofReal (P.px ((j + 1) % P.rows) ((k + 1) % P.cols)) := by
      intro j k
      rw [hlr, hlc, Nat.mul_zero, Nat.mul_zero, pow_zero, pow_zero, mul_one, mul_one]
    rw [Finset.sum_congr rfl fun j _ => Finset.sum_congr rfl fun k _ => hpow j k]
    have hshiftk : ∀ j, ∑ k ∈ Finset.range P.cols,
        Cplx.ofReal (P.px ((j + 1) % P.rows) ((k + 1) % P.cols))
        = ∑ k ∈ Finset.range P.cols, Cplx.ofReal (P.px ((j + 1) % P.rows) k) :=
      fun j => sum_range_shift_mod P.cols 1 hnP
        (fun k => Cplx.ofReal (P.px ((j + 1) % P.rows) k))
    rw [Finset.sum_congr rfl fun j _ => hshiftk j,
      sum_range_shift_mod P.rows 1 hmP
        (fun j => ∑ k ∈ Finset.range P.cols, Cplx.ofReal (P.px j k))]
    have hinner : ∀ j, ∑ k ∈ Finset.range P.cols, Cplx.ofReal (P.px j k)
        = ∑ k ∈ Finset.range 3, Cplx.ofReal (P.px j k) := by
      intro j
      refine (Finset.sum_subset (Finset.range_subset.mpr (by omega)) ?_).symm
      intro k _ hk3
      rw [hPpx, if_neg (by simp at hk3; omega), Cplx.ofReal]
      rfl
    rw [Finset.sum_congr rfl fun j _ => hinner j]
    have houter : ∑ j ∈ Finset.range P.rows, ∑ k ∈ Finset.range 3, Cplx.ofReal (P.px j k)
        = ∑ j ∈ Finset.range 3, ∑ k ∈ Finset.range 3, Cplx.ofReal (P.px j k) := by
      refine (Finset.sum_subset (Finset.range_subset.mpr (by omega)) ?_).symm
      intro j _ hj3
      refine Finset.sum_eq_zero fun k _ => ?_
      rw [hPpx, if_neg (by simp at hj3; omega), Cplx.ofReal]
      rfl
    rw [houter,
      Finset.sum_congr rfl fun j hj => Finset.sum_congr rfl fun k hk => by
        rw [hPpx, if_pos ⟨Finset.mem_range.mp hj, Finset.mem_range.mp hk⟩]]
    exact laplacian_sum_zero
  refine ⟨Img.zipWith (fun t g =>
      let denom := Cplx.abs2 t + r * Cplx.abs2 g
      if denom = 0 then none
      else some ⟨(Cplx.conj t).re / denom, (Cplx.conj t).im / denom⟩)
      (⟨ctx.m, ctx.n, fun _ _ => 0⟩ : Img (Cplx F))
      (real_if_close (fft2 ctx (Img.ofReal ⟨P.rows, P.cols, fun i j =>
        P.px ((i + (LAPLACIAN F).rows / 2) % P.rows)
          ((j + (LAPLACIAN F).cols / 2) % P.cols)⟩))), ?_, ?_, ?_⟩
  · rw [deconv_wiener, hT, hG]
    rfl
  · simp only [Img.zipWith, hG00]
    have hd : Cplx.abs2 (0 : Cplx F) + r * Cplx.abs2 (0 : Cplx F) = 0 := by
      simp [Cplx.abs2]
    rw [if_pos hd]
  · intro u v
    simp only [Img.zipWith]
    by_cases hd : Cplx.abs2 (0 : Cplx F) + r * Cplx.abs2 ((real_if_close (fft2 ctx
        (Img.ofReal ⟨P.rows, P.cols, fun i j =>
          P.px ((i + (LAPLACIAN F).rows / 2) % P.rows)
            ((j + (LAPLACIAN F).cols / 2) % P.cols)⟩))).px u v) = 0
    · left
      rw [if_pos hd]
    · right
      rw [if_neg hd]
      congr 1
      ext <;> simp [Cplx.conj]

/-- Witness for the amended C3 on the concrete 4-by-4 grid with the
default regularisation factor. -/
theorem deconv_wiener_zero_psf_amended_witness :
    3 ≤ ctx4.m ∧ 3 ≤ ctx4.n ∧
      ∃ w, deconv_wiener ctx4 (Img.zeroImg ℚ 4 4) (1 / 10000) = Except.ok w ∧
        w.px 0 0 = none ∧ ∀ u v, w.px u v = none ∨ w.px u v = some 0 :=
  ⟨by decide, by decide,
    deconv_wiener_zero_psf_amended ctx4 (by decide) (by decide) (1 / 10000)⟩

/-!  ### The discarded clip of `homogenization_kernel` (claim C1) -/

/-- A 4-by-4 source PSF: a unit impulse at the geometric centre `(2,2)`. -/
def psf_source4 : Img ℚ := ⟨4, 4, fun i j => if i = 2 ∧ j = 2 then 1 else 0⟩

/-- A 4-by-4 target PSF of total flux 100 concentrated at `(0,0)`. -/
def psf_target4 : Img ℚ := ⟨4, 4, fun i j => if i = 0 ∧ j = 0 then 100 else 0⟩

/-- Lifting a complex value into the NaN-extended domain is additive. -/
def NanC.someHom (R : Type) [CommRing R] : Cplx R →+ NanC R where
  toFun := some
  map_zero' := rfl
  map_add' _ _ := rfl

/-- A sum of finite (non-NaN) values is finite, with the expected value. -/
theorem nanc_sum_some {ι : Type} (s : Finset ι) (g : ι → Cplx R) :
    (∑ i ∈ s, (some (g i) : NanC R)) = some (∑ i ∈ s, g i) :=
  (map_sum (NanC.someHom R) g s).symm

/-- The pixel `(0,0)` of the image-domain kernel, for a 4-by-4 spectrum
whose entries are the finite values `c u v`. -/
theorem uidft2N_ctx4_px00 (f : Img (NanC ℚ)) (hr : f.rows = 4) (hc : f.cols = 4)
    (c : ℕ → ℕ → Cplx ℚ) (h : ∀ u, u < 4 → ∀ v, v < 4 → f.px u v = some (c u v)) :
    ((uidft2N ctx4 f).map NanC.re).px 0 0 =
      some ((((∑ u ∈ Finset.range 4, ∑ v ∈ Finset.range 4,
        c u v * (ctx4.wmInv ^ (u * 0) * ctx4.wnInv ^ (v * 0))) * ctx4.nInv) * ctx4.s).re) := by
  show NanC.re (NanC.mul (NanC.mul (∑ u ∈ Finset.range f.rows, ∑ v ∈ Finset.range f.cols,
      NanC.mul (f.px u v) (some (ctx4.wmInv ^ (u * 0) * ctx4.wnInv ^ (v * 0))))
      (some ctx4.nInv)) (some ctx4.s)) = _
  rw [hr, hc,
    Finset.sum_congr rfl fun u hu => Finset.sum_congr rfl fun v hv => by
      rw [h u (Finset.mem_range.mp hu) v (Finset.mem_range.mp hv)]]
  have hmulsome : ∀ a b : Cplx ℚ, NanC.mul (some a) (some b) = some (a * b) := fun _ _ => rfl
  have hresome : ∀ z : Cplx ℚ, NanC.re (some z) = some z.re := fun _ => rfl
  simp only [hmulsome, nanc_sum_some, hresome]

/-- Every entry of the unitary spectrum of the C1 target PSF is `25`:
the target's whole flux of 100 sits at index `(0,0)`, whose character is
identically one, and the unitary scale is `1/4`. -/
theorem udft_target4_entry (u v : ℕ) :
    (udft2 ctx4 psf_target4.ofReal).px u v = Cplx.ofReal 25 := by
  show (∑ j ∈ Finset.range 4, ∑ k ∈ Finset.range 4,
      Cplx.ofReal (psf_target4.px j k) * ctx4.wm ^ (j * u) * ctx4.wn ^ (k * v))
    * ctx4.sInv = Cplx.ofReal 25
  have hz : ∀ j k, ¬ (j = 0 ∧ k = 0) →
      Cplx.ofReal (psf_target4.px j k) * ctx4.wm ^ (j * u) * ctx4.wn ^ (k * v) = 0 := by
    intro j k hjk
    have hpx : psf_target4.px j k = 0 := by
      show (if j = 0 ∧ k = 0 then (100 : ℚ) else 0) = 0
      rw [if_neg hjk]
    rw [hpx]
    ext <;> simp [Cplx.ofReal]
  rw [Finset.sum_range_succ, Finset.sum_range_succ, Finset.sum_range_succ,
    Finset.sum_range_succ, Finset.sum_range_zero,
    Finset.sum_range_succ, Finset.sum_range_succ, Finset.sum_range_succ,
    Finset.sum_range_succ, Finset.sum_range_zero]
  rw [hz 0 1 (by omega), hz 0 2 (by omega), hz 0 3 (by omega)]
  rw [Finset.sum_eq_zero fun k _ => hz 1 k (by omega),
    Finset.sum_eq_zero fun k _ => hz 2 k (by omega),
    Finset.sum_eq_zero fun k _ => hz 3 k (by omega)]
  have h00 : Cplx.ofReal (psf_target4.px 0 0) * ctx4.wm ^ (0 * u) * ctx4.wn ^ (0 * v)
      = Cplx.ofReal 100 := by
    show Cplx.ofReal (if (0:ℕ) = 0 ∧ (0:ℕ) = 0 then (100:ℚ) else 0)
        * ctx4.wm ^ (0 * u) * ctx4.wn ^ (0 * v) = Cplx.ofReal 100
    rw [if_pos ⟨rfl, rfl⟩, Nat.zero_mul, Nat.zero_mul, pow_zero, pow_zero, mul_one, mul_one]
  rw [h00]
  ext <;> simp [Cplx.ofReal, ctx4] <;> norm_num

/-- Applying `psf2otf` to the C1 source PSF: the unit impulse at the roll centre
`(2,2)` lands on the origin after the circular shift, so the OTF is
identically one. -/
theorem psf2otf_source4 : ∃ T, psf2otf ctx4 psf_source4 = Except.ok T ∧
    T.rows = 4 ∧ T.cols = 4 ∧ ∀ u v, T.px u v = 1 := by
  have hnz : psf_source4.allZero = false := by with_unfolding_all decide
  have hpad : zero_pad psf_source4 ctx4.m ctx4.n .corner = Except.ok psf_source4 := by
    rw [zero_pad, if_pos ⟨rfl, rfl⟩]
  refine ⟨real_if_close (fft2 ctx4 (Img.ofReal ⟨psf_source4.rows, psf_source4.cols,
      fun i j => psf_source4.px ((i + psf_source4.rows / 2) % psf_source4.rows)
        ((j + psf_source4.cols / 2) % psf_source4.cols)⟩)), ?_, rfl, rfl, ?_⟩
  · simp only [psf2otf, hnz, Bool.false_eq_true, if_false, hpad]
    rfl
  · intro u v
    have hs2 : psf_source4.rows / 2 = 2 := by norm_num [psf_source4]
    have hc2 : psf_source4.cols / 2 = 2 := by norm_num [psf_source4]
    show (∑ j ∈ Finset.range 4, ∑ k ∈ Finset.range 4,
        Cplx.ofReal (psf_source4.px ((j + psf_source4.rows / 2) % 4)
          ((k + psf_source4.cols / 2) % 4)) * ctx4.wm ^ (j * u) * ctx4.wn ^ (k * v)) = 1
    rw [Finset.sum_congr rfl fun j _ => Finset.sum_congr rfl fun k _ => by rw [hs2, hc2]]
    have hz : ∀ j k, j < 4 → k < 4 → ¬ (j = 0 ∧ k = 0) →
        Cplx.ofReal (psf_source4.px ((j + 2) % 4) ((k + 2) % 4))
          * ctx4.wm ^ (j * u) * ctx4.wn ^ (k * v) = 0 := by
      intro j k hj hk hjk
      have hpx : psf_source4.px ((j + 2) % 4) ((k + 2) % 4) = 0 := by
        show (if (j + 2) % 4 = 2 ∧ (k + 2) % 4 = 2 then (1 : ℚ) else 0) = 0
        rw [if_neg (by omega)]
      rw [hpx]
      ext <;> simp [Cplx.ofReal]
    rw [Finset.sum_range_succ, Finset.sum_range_succ, Finset.sum_range_succ,
      Finset.sum_range_succ, Finset.sum_range_zero]
    rw [Finset.sum_range_succ, Finset.sum_range_succ, Finset.sum_range_succ,
      Finset.sum_range_succ, Finset.sum_range_zero]
    rw [hz 0 1 (by omega) (by omega) (by omega), hz 0 2 (by omega) (by omega) (by omega),
      hz 0 3 (by omega) (by omega) (by omega)]
    rw [Finset.sum_eq_zero fun k hk => hz 1 k (by omega) (Finset.mem_range.mp hk) (by omega),
      Finset.sum_eq_zero fun k hk => hz 2 k (by omega) (Finset.mem_range.mp hk) (by omega),
      Finset.sum_eq_zero fun k hk => hz 3 k (by omega) (Finset.mem_range.mp hk) (by omega)]
    have h00 : Cplx.ofReal (psf_source4.px ((0 + 2) % 4) ((0 + 2) % 4))
        * ctx4.wm ^ (0 * u) * ctx4.wn ^ (0 * v) = 1 := by
      have hpx : psf_source4.px ((0 + 2) % 4) ((0 + 2) % 4) = 1 := by
        show (if (0 + 2) % 4 = 2 ∧ (0 + 2) % 4 = 2 then (1 : ℚ) else 0) = 1
        rw [if_pos (by omega)]
      rw [hpx, Nat.zero_mul, Nat.zero_mul, pow_zero, pow_zero, mul_one, mul_one]
      rfl
    rw [h00]
    ring

/-- Claim C1, failing input: with `clip = true` (the default) and the
regularisation factor `0`, the kernel image computed for the 4-by-4 PSF
pair above has the value `100` at pixel `(0,0)` — far outside `[-1, 1]`
(the impulse source deconvolves exactly, so the kernel reproduces the
target's full flux of 100 in one pixel).  Line 435
`kernel_image.clip(-1, 1)` discards the clipped copy that
`numpy.ndarray.clip` returns, so the out-of-range value is returned to
the caller; the same failing input with the default factor `1e-4`
yields about `99.8` at the same pixel. -/
theorem homogenization_kernel_clip_exceeded :
    ∃ q : ℚ, Except.map (fun p => (Prod.fst p).px 0 0)
        (homogenization_kernel ctx4 psf_target4 psf_source4 0 true) =
      Except.ok (some q) ∧ 1 < q := by
  obtain ⟨T, hT, hTr, hTc, hTpx⟩ := psf2otf_source4
  obtain ⟨G, hG⟩ : ∃ G, psf2otf ctx4 (LAPLACIAN ℚ) = Except.ok G := by
    have hne : (psf2otf ctx4 (LAPLACIAN ℚ)).isOk = true := by
      with_unfolding_all decide
    cases hdg : psf2otf ctx4 (LAPLACIAN ℚ) with
    | ok G => exact ⟨G, rfl⟩
    | error e => rw [hdg] at hne; exact Bool.noConfusion hne
  have hWok : deconv_wiener ctx4 psf_source4 0 = Except.ok (Img.zipWith (fun t g =>
      let denom := Cplx.abs2 t + 0 * Cplx.abs2 g
      if denom = 0 then none
      else some ⟨(Cplx.conj t).re / denom, (Cplx.conj t).im / denom⟩) T G) := by
    rw [deconv_wiener, hT, hG]
    rfl
  have hWpx : ∀ u v, (Img.zipWith (fun t g =>
      let denom := Cplx.abs2 t + 0 * Cplx.abs2 g
      if denom = 0 then none
      else some ⟨(Cplx.conj t).re / denom, (Cplx.conj t).im / denom⟩) T G).px u v
      = some (1 : Cplx ℚ) := by
    intro u v
    simp only [Img.zipWith, hTpx u v]
    have habs1 : Cplx.abs2 (1 : Cplx ℚ) = 1 := by norm_num [Cplx.abs2]
    rw [habs1, zero_mul, add_zero, if_neg one_ne_zero]
    congr 1
    ext <;> simp [Cplx.conj]
  have hok : homogenization_kernel ctx4 psf_target4 psf_source4 0 true =
      Except.ok ((uidft2N ctx4 (Img.zipWith (fun w t => NanC.mul w (some t))
          (Img.zipWith (fun t g =>
            let denom := Cplx.abs2 t + 0 * Cplx.abs2 g
            if denom = 0 then none
            else some ⟨(Cplx.conj t).re / denom, (Cplx.conj t).im / denom⟩) T G)
          (udft2 ctx4 psf_target4.ofReal))).map NanC.re,
        Img.zipWith (fun w t => NanC.mul w (some t))
          (Img.zipWith (fun t g =>
            let denom := Cplx.abs2 t + 0 * Cplx.abs2 g
            if denom = 0 then none
            else some ⟨(Cplx.conj t).re / denom, (Cplx.conj t).im / denom⟩) T G)
          (udft2 ctx4 psf_target4.ofReal)) := by
    rw [homogenization_kernel, hWok]
    rfl
  have hKF : ∀ u, u < 4 → ∀ v, v < 4 →
      (Img.zipWith (fun w t => NanC.mul w (some t))
        (Img.zipWith (fun t g =>
          let denom := Cplx.abs2 t + 0 * Cplx.abs2 g
          if denom = 0 then none
          else some ⟨(Cplx.conj t).re / denom, (Cplx.conj t).im / denom⟩) T G)
        (udft2 ctx4 psf_target4.ofReal)).px u v
      = some ((1 : Cplx ℚ) * Cplx.ofReal 25) := by
    intro u hu v hv
    show NanC.mul ((Img.zipWith (fun t g =>
        let denom := Cplx.abs2 t + 0 * Cplx.abs2 g
        if denom = 0 then none
        else some ⟨(Cplx.conj t).re / denom, (Cplx.conj t).im / denom⟩) T G).px u v)
      (some ((udft2 ctx4 psf_target4.ofReal).px u v)) = some ((1 : Cplx ℚ) * Cplx.ofReal 25)
    rw [hWpx u v, udft_target4_entry u v]
    rfl
  have himg := uidft2N_ctx4_px00
    (Img.zipWith (fun w t => NanC.mul w (some t))
      (Img.zipWith (fun t g =>
        let denom := Cplx.abs2 t + 0 * Cplx.abs2 g
        if denom = 0 then none
        else some ⟨(Cplx.conj t).re / denom, (Cplx.conj t).im / denom⟩) T G)
      (udft2 ctx4 psf_target4.ofReal))
    (by show T.rows = 4; exact hTr) (by show T.cols = 4; exact hTc)
    (fun _ _ => (1 : Cplx ℚ) * Cplx.ofReal 25) hKF
  refine ⟨(((∑ u ∈ Finset.range 4, ∑ v ∈ Finset.range 4,
      ((1 : Cplx ℚ) * Cplx.ofReal 25) * (ctx4.wmInv ^ (u * 0) * ctx4.wnInv ^ (v * 0)))
      * ctx4.nInv) * ctx4.s).re, ?_, ?_⟩
  · rw [hok]
    show Except.ok (((uidft2N ctx4 (Img.zipWith (fun w t => NanC.mul w (some t))
        (Img.zipWith (fun t g =>
          let denom := Cplx.abs2 t + 0 * Cplx.abs2 g
          if denom = 0 then none
          else some ⟨(Cplx.conj t).re / denom, (Cplx.conj t).im / denom⟩) T G)
        (udft2 ctx4 psf_target4.ofReal))).map NanC.re).px 0 0) = _
    rw [himg]
  · with_unfolding_all decide

end Pypher
